import Mathlib

/-!
Shallow embedding of `ristretto/ballistic/randlapack/comps/deterministic.py`:
construction of implicit preconditioned linear operators and the
solver-adapter plumbing around external LSQR/CG routines, modelled over exact
rationals.  The external iterative solvers are abstract function parameters
(the spec treats them as collaborators); the triangular-solve primitive is
embedded as back-substitution that fails on a zero diagonal entry.
-/

namespace Ristretto

/-- Dense vectors of length `m`, modelled over `ℚ`. -/
abbrev Vec (m : ℕ) : Type := Fin m → ℚ

/-- Dense `n × m` matrices over `ℚ`. -/
abbrev Mat (n m : ℕ) : Type := Matrix (Fin n) (Fin m) ℚ

/-- `R` is upper triangular: every entry strictly below the diagonal is zero. -/
def UpperTri {m : ℕ} (R : Mat m m) : Prop :=
  ∀ i j : Fin m, j < i → R i j = 0

instance {m : ℕ} (R : Mat m m) : Decidable (UpperTri R) :=
  inferInstanceAs (Decidable (∀ i j : Fin m, j < i → R i j = 0))

/-- Fuel-indexed back-substitution for the upper-triangular system `R x = b`:
entry `i` is `(b i - Σ_{j > i} R i j · x j) / R i i`, computed from the last
row upward.  Any `fuel ≥ m - i` gives the same value. -/
def backSubF {m : ℕ} (R : Mat m m) (b : Vec m) : ℕ → Fin m → ℚ
  | 0, _ => 0
  | fuel + 1, i =>
      (b i - ∑ j ∈ Finset.univ.filter (fun j => i < j),
          R i j * backSubF R b fuel j) / R i i

/-- Back-substitution solving `R x = b` for upper-triangular `R` (the forward,
non-transposed mode of `scipy.linalg.solve_triangular` with `lower=False`). -/
def backSub {m : ℕ} (R : Mat m m) (b : Vec m) : Vec m :=
  fun i => backSubF R b m i

/-- Fuel-indexed forward substitution for the transposed system `Rᵀ x = b`
(`R` upper triangular, so `Rᵀ` is lower triangular): entry `i` is
`(b i - Σ_{j < i} R j i · x j) / R i i`, computed from the first row down. -/
def forwardSubTF {m : ℕ} (R : Mat m m) (b : Vec m) : ℕ → Fin m → ℚ
  | 0, _ => 0
  | fuel + 1, i =>
      (b i - ∑ j ∈ Finset.univ.filter (fun j => j < i),
          R j i * forwardSubTF R b fuel j) / R i i

/-- Forward substitution solving `Rᵀ x = b` (the `trans='T'` mode of
`scipy.linalg.solve_triangular` with `lower=False`). -/
def forwardSubT {m : ℕ} (R : Mat m m) (b : Vec m) : Vec m :=
  fun i => forwardSubTF R b m i

/-- Error surfaced when a triangular solve meets a singular preconditioner. -/
inductive PrecondError : Type
  | singularPreconditioner
deriving DecidableEq

/-- Modelled from the spec: `TriangularSolve` (§4.1).  The triangular-solve
primitive the source calls (`scipy.linalg.solve_triangular`, implemented
outside this repository) solves `R x = b` when `transposed = false` and
`Rᵀ x = b` when `transposed = true` (`trans='T'`), and on a zero diagonal
entry reports singularity as an error instead of returning a vector. -/
def solveTriangular {m : ℕ} (transposed : Bool) (R : Mat m m) (b : Vec m) :
    Except PrecondError (Vec m) :=
  if ∃ i, R i i = 0 then .error .singularPreconditioner
  else .ok (if transposed then forwardSubT R b else backSub R b)

/-- `scipy.sparse.linalg.LinearOperator`: a declared shape together with a
forward and an adjoint matrix-vector product.  Applications are fallible
because the triangular solve inside them can fail. -/
structure LinOperator (n m : ℕ) : Type where
  shape : ℕ × ℕ
  matvec : Vec m → Except PrecondError (Vec n)
  rmatvec : Vec n → Except PrecondError (Vec m)

/-- Result bundle of an external iterative solver: the solution vector plus
the remaining diagnostic fields (stop reason, iteration count, residual
norms, …) kept abstract as a value of type `D`. -/
structure SolverResult (m : ℕ) (D : Type) : Type where
  sol : Vec m
  diagnostics : D

/-- `a_times_inv_r(A, R)`: operator representing `A @ inv(R)`.
`mv` copies `vec` into the scratch buffer, triangular-solves `R work = vec`
in place, and returns `A @ work`; `rmv` writes `Aᵀ vec` into the scratch
buffer and transpose-solves `Rᵀ x = work`.  The declared shape is `A.shape`. -/
def a_times_inv_r {n m : ℕ} (A : Mat n m) (R : Mat m m) : LinOperator n m where
  shape := (n, m)
  matvec := fun vec => (solveTriangular false R vec).map fun work => A.mulVec work
  rmatvec := fun vec => solveTriangular true R (A.transpose.mulVec vec)

/-- Shared forward/adjoint apply of `lr_precond_gram`: forward-solve by `R`,
multiply by `A`, multiply by `Aᵀ`, transpose-solve by `R`. -/
def lrGramMv {n m : ℕ} (A : Mat n m) (R : Mat m m) (vec : Vec m) :
    Except PrecondError (Vec m) :=
  (solveTriangular false R vec).bind fun work1 =>
    solveTriangular true R (A.transpose.mulVec (A.mulVec work1))

/-- `lr_precond_gram(A, R)`: operator representing
`(A @ inv(R)).T @ (A @ inv(R))` with declared shape `(m, m)`; the same `mv`
closure is installed as both `matvec` and `rmatvec`. -/
def lr_precond_gram {n m : ℕ} (A : Mat n m) (R : Mat m m) : LinOperator m m where
  shape := (m, m)
  matvec := lrGramMv A R
  rmatvec := lrGramMv A R

/-- Call shape of the external LSQR routine exactly as the source invokes it:
`lsqr(operator, b, atol, btol, iter_lim, x0?)`; it returns a result bundle or
propagates an error raised inside an operator application. -/
abbrev LsqrFun (n m : ℕ) (D : Type) : Type :=
  LinOperator n m → Vec n → ℚ → ℚ → ℕ → Option (Vec m) →
    Except PrecondError (SolverResult m D)

/-- Call shape of the external CG routine as the source invokes it (same
argument list; the operator is square). -/
abbrev CgFun (m : ℕ) (D : Type) : Type := LsqrFun m m D

/-- `upper_tri_precond_lsqr(A, b, R, tol, iter_lim, x0)`: build
`A @ inv(R)`; when `x0` is given pass `y0 = R @ x0` as the solver's initial
guess, otherwise pass none; run external LSQR with `atol = btol = tol`; then
triangular-solve the solution component in place (`y → x = R⁻¹ y`) and return
the result with every other field untouched. -/
def upper_tri_precond_lsqr {n m : ℕ} {D : Type} (lsqr : LsqrFun n m D)
    (A : Mat n m) (b : Vec n) (R : Mat m m) (tol : ℚ) (iter_lim : ℕ)
    (x0 : Option (Vec m)) : Except PrecondError (SolverResult m D) :=
  let A_precond := a_times_inv_r A R
  let result := match x0 with
    | some x0v => lsqr A_precond b tol tol iter_lim (some (R.mulVec x0v))
    | none => lsqr A_precond b tol tol iter_lim none
  result.bind fun res =>
    (solveTriangular false R res.sol).map fun x => { res with sol := x }

/-- `pinv_precond_lsqr(A, b, N, tol, iter_lim)`: build the operator
`v ↦ A (N v)` with adjoint `v ↦ Nᵀ (Aᵀ v)` and declared shape
`(A.shape[0], N.shape[1])`; run external LSQR with no initial guess; then
rebuild the result with the solution component replaced by the fresh product
`N @ y`, keeping the remaining fields. -/
def pinv_precond_lsqr {n m k : ℕ} {D : Type} (lsqr : LsqrFun n k D)
    (A : Mat n m) (b : Vec n) (N : Mat m k) (tol : ℚ) (iter_lim : ℕ) :
    Except PrecondError (SolverResult m D) :=
  let A_precond : LinOperator n k :=
    { shape := (n, k)
      matvec := fun vec => .ok (A.mulVec (N.mulVec vec))
      rmatvec := fun vec => .ok (N.transpose.mulVec (A.transpose.mulVec vec)) }
  let result := lsqr A_precond b tol tol iter_lim none
  result.map fun res =>
    { sol := N.mulVec res.sol, diagnostics := res.diagnostics }

/-- `upper_tri_precond_cg(A, b, R, tol, iter_lim, x0)`: build the Gram
operator; transform the right-hand side by a transpose solve
(`b_precond = R⁻ᵀ b`, applied directly to the supplied `b`); when `x0` is
given pass `y0 = R @ x0` as the initial guess; run external CG; then
triangular-solve the solution component in place. -/
def upper_tri_precond_cg {n m : ℕ} {D : Type} (cg : CgFun m D)
    (A : Mat n m) (b : Vec m) (R : Mat m m) (tol : ℚ) (iter_lim : ℕ)
    (x0 : Option (Vec m)) : Except PrecondError (SolverResult m D) :=
  let AtA_precond := lr_precond_gram A R
  (solveTriangular true R b).bind fun b_precond =>
    (match x0 with
      | some x0v => cg AtA_precond b_precond tol tol iter_lim (some (R.mulVec x0v))
      | none => cg AtA_precond b_precond tol tol iter_lim none).bind
      fun res => (solveTriangular false R res.sol).map fun x => { res with sol := x }

/-!
Runtime-shape (untyped) model: matrices as lists of rows, vectors as lists.
The source performs no dimension validation of its own; shape errors can only
come from the underlying array library's runtime checks inside individual
operations.  This model makes dimension mismatches representable.
-/

/-- Runtime errors of the underlying array layer: numpy/scipy raise
`ValueError` on dimension mismatch and `LinAlgError` on a singular triangular
matrix. -/
inductive UErr : Type
  | shapeMismatch
  | singular
deriving DecidableEq

/-- Runtime shape `(rows, cols)` of a matrix stored as a list of rows. -/
def ushape (A : List (List ℚ)) : ℕ × ℕ := (A.length, (A.headD []).length)

/-- Dot product of two lists (used for `A @ v` after the length check). -/
def ldot (u v : List ℚ) : ℚ := (List.zipWith (fun a b => a * b) u v).sum

/-- `np.copyto(dst, src)`: overwrites `dst` with `src`; the lengths must
match (or `src` has length one and broadcasts), otherwise numpy raises. -/
def npCopyto (dst src : List ℚ) : Except UErr (List ℚ) :=
  if src.length = dst.length then .ok src
  else if src.length = 1 then .ok (List.replicate dst.length (src.headD 0))
  else .error .shapeMismatch

/-- `A @ v` on runtime-shaped data: `v` must have `A`'s column count. -/
def npMatVec (A : List (List ℚ)) (v : List ℚ) : Except UErr (List ℚ) :=
  if v.length = (ushape A).2 then .ok (A.map fun row => ldot row v)
  else .error .shapeMismatch

/-- Transpose of a list-of-rows matrix (entries outside a row read 0). -/
def utranspose (A : List (List ℚ)) : List (List ℚ) :=
  (List.range (ushape A).2).map fun j => A.map fun row => row.getD j 0

/-- View a list-of-rows matrix as a `Fin`-indexed matrix (missing entries
read 0). -/
def toMat (A : List (List ℚ)) (n m : ℕ) : Mat n m :=
  fun i j => (A.getD i []).getD j 0

/-- `scipy.linalg.solve_triangular` on runtime-shaped data: scipy validates
that `R` is square and that `b` matches it before LAPACK runs, raising on a
mismatch; a zero diagonal entry is reported as singularity. -/
def usolveTriangular (transposed : Bool) (R : List (List ℚ)) (b : List ℚ) :
    Except UErr (List ℚ) :=
  if (ushape R).2 = R.length ∧ b.length = R.length then
    match solveTriangular transposed (toMat R R.length R.length)
        (fun i => b.getD i 0) with
    | .error _ => .error .singular
    | .ok x => .ok (List.ofFn x)
  else .error .shapeMismatch

/-- Runtime-shape view of `scipy.sparse.linalg.LinearOperator`: construction
records the declared shape and the two closures; no consistency check between
the shape and the closures is performed at construction time. -/
structure ULinOperator : Type where
  shape : ℕ × ℕ
  matvec : List ℚ → Except UErr (List ℚ)
  rmatvec : List ℚ → Except UErr (List ℚ)

/-- `a_times_inv_r` on runtime-shaped data, line for line: allocate
`work = np.zeros(A.shape[1])`, close over it in `mv`/`rmv`, and construct the
operator with `shape = A.shape`.  The function body contains no dimension
validation of its own. -/
def ua_times_inv_r (A R : List (List ℚ)) : ULinOperator where
  shape := ushape A
  matvec := fun vec =>
    (npCopyto (List.replicate (ushape A).2 0) vec).bind fun work =>
      (usolveTriangular false R work).bind fun work2 => npMatVec A work2
  rmatvec := fun vec =>
    (npMatVec (utranspose A) vec).bind fun work => usolveTriangular true R work

/-- Shared `mv` of `lr_precond_gram` on runtime-shaped data. -/
def ulrGramMv (A R : List (List ℚ)) (vec : List ℚ) : Except UErr (List ℚ) :=
  (npCopyto (List.replicate (ushape A).2 0) vec).bind fun work1 =>
    (usolveTriangular false R work1).bind fun work1b =>
      (npMatVec A work1b).bind fun work2 =>
        (npMatVec (utranspose A) work2).bind fun work1c =>
          usolveTriangular true R work1c

/-- `lr_precond_gram` on runtime-shaped data: declared shape
`(A.shape[1], A.shape[1])`, the same closure for `matvec` and `rmatvec`, and
no dimension validation of its own. -/
def ulr_precond_gram (A R : List (List ℚ)) : ULinOperator where
  shape := ((ushape A).2, (ushape A).2)
  matvec := ulrGramMv A R
  rmatvec := ulrGramMv A R

/-!
Buffer-level model: the closures of `a_times_inv_r`, `lr_precond_gram` and
`pinv_precond_lsqr` mutate preallocated scratch arrays in place.  Mutation is
made explicit by state passing; each numpy call writes only to its `out=`
target (or, for `solve_triangular` with `overwrite_b=True`, to its `b`
argument), so the embedding records exactly which buffer every step writes.
-/

/-- Buffers visible to `a_times_inv_r.mv`: the caller's argument array `vec`
and the operator's private scratch `work`. -/
structure MvState (m : ℕ) : Type where
  vec : Vec m
  work : Vec m

/-- `a_times_inv_r.mv` with buffer writes explicit: `np.copyto(work, vec)`
writes `work`; the triangular solve with `overwrite_b=True` rewrites `work`;
`A @ work` allocates the returned vector. -/
def mvTrace {n m : ℕ} (A : Mat n m) (R : Mat m m) (s : MvState m) :
    Except PrecondError (Vec n × MvState m) :=
  let s1 : MvState m := { s with work := s.vec }
  (solveTriangular false R s1.work).map fun w =>
    (A.mulVec w, { s1 with work := w })

/-- Buffers visible to `a_times_inv_r.rmv`: the caller's argument array `vec`
(length `n`) and the operator scratch `work` (length `m`). -/
structure RmvState (n m : ℕ) : Type where
  vec : Vec n
  work : Vec m

/-- `a_times_inv_r.rmv` with buffer writes explicit: `np.dot(A.T, vec,
out=work)` writes `work`; the transpose solve (no `overwrite_b`) returns a
fresh vector, leaving `work` holding `Aᵀ vec`. -/
def rmvTrace {n m : ℕ} (A : Mat n m) (R : Mat m m) (s : RmvState n m) :
    Except PrecondError (Vec m × RmvState n m) :=
  let s1 : RmvState n m := { s with work := A.transpose.mulVec s.vec }
  (solveTriangular true R s1.work).map fun x => (x, s1)

/-- Buffers visible to `lr_precond_gram.mv`: the caller's `vec` and the two
scratch arrays `work1` (length `m`) and `work2` (length `n`). -/
structure LrState (n m : ℕ) : Type where
  vec : Vec m
  work1 : Vec m
  work2 : Vec n

/-- `lr_precond_gram.mv` with buffer writes explicit: copy into `work1`,
solve `work1` in place, `np.dot(A, work1, out=work2)`,
`np.dot(A.T, work2, out=work1)`, then a transpose solve returning a fresh
vector. -/
def lrGramMvTrace {n m : ℕ} (A : Mat n m) (R : Mat m m) (s : LrState n m) :
    Except PrecondError (Vec m × LrState n m) :=
  let s1 : LrState n m := { s with work1 := s.vec }
  (solveTriangular false R s1.work1).bind fun w =>
    let s2 : LrState n m := { s1 with work1 := w }
    let s3 : LrState n m := { s2 with work2 := A.mulVec s2.work1 }
    let s4 : LrState n m := { s3 with work1 := A.transpose.mulVec s3.work2 }
    (solveTriangular true R s4.work1).map fun res => (res, s4)

/-- Buffers visible to `pinv_precond_lsqr`'s `mv`: the caller's `vec`
(length `k`) and the scratch `work` (length `m`). -/
structure PinvMvState (k m : ℕ) : Type where
  vec : Vec k
  work : Vec m

/-- `pinv_precond_lsqr`'s `mv` with buffer writes explicit:
`np.dot(N, vec, out=work)` writes `work`; `A @ work` is a fresh vector. -/
def pinvMvTrace {n m k : ℕ} (A : Mat n m) (N : Mat m k) (s : PinvMvState k m) :
    Vec n × PinvMvState k m :=
  let s1 : PinvMvState k m := { s with work := N.mulVec s.vec }
  (A.mulVec s1.work, s1)

/-- Buffers visible to `pinv_precond_lsqr`'s `rmv`: the caller's `vec`
(length `n`) and the scratch `work` (length `m`). -/
structure PinvRmvState (n m : ℕ) : Type where
  vec : Vec n
  work : Vec m

/-- `pinv_precond_lsqr`'s `rmv` with buffer writes explicit:
`np.dot(A.T, vec, out=work)` writes `work`; `N.T @ work` is fresh. -/
def pinvRmvTrace {n m k : ℕ} (A : Mat n m) (N : Mat m k)
    (s : PinvRmvState n m) : Vec k × PinvRmvState n m :=
  let s1 : PinvRmvState n m := { s with work := A.transpose.mulVec s.vec }
  (N.transpose.mulVec s1.work, s1)

/-!
Helper lemmas: the fuel in the substitutions is irrelevant once large enough,
each substitution satisfies its defining recurrence, and each one solves its
triangular system when the diagonal of `R` is nonzero.
-/

theorem backSubF_stable {m : ℕ} (R : Mat m m) (b : Vec m) :
    ∀ f₁ f₂ : ℕ, ∀ i : Fin m, m - i.val ≤ f₁ → m - i.val ≤ f₂ →
      backSubF R b f₁ i = backSubF R b f₂ i := by
  intro f₁
  induction f₁ with
  | zero =>
    intro f₂ i h1 _
    have := i.isLt
    omega
  | succ g ih =>
    intro f₂ i h1 h2
    match f₂ with
    | 0 =>
      have := i.isLt
      omega
    | h + 1 =>
      simp only [backSubF]
      have hs : ∑ j ∈ Finset.univ.filter (fun j => i < j), R i j * backSubF R b g j
          = ∑ j ∈ Finset.univ.filter (fun j => i < j), R i j * backSubF R b h j := by
        refine Finset.sum_congr rfl fun j hj => ?_
        have hij : (i : ℕ) < (j : ℕ) := Fin.lt_def.mp (Finset.mem_filter.mp hj).2
        have hjm := j.isLt
        rw [ih h j (by omega) (by omega)]
      rw [hs]

theorem forwardSubTF_stable {m : ℕ} (R : Mat m m) (b : Vec m) :
    ∀ f₁ f₂ : ℕ, ∀ i : Fin m, i.val < f₁ → i.val < f₂ →
      forwardSubTF R b f₁ i = forwardSubTF R b f₂ i := by
  intro f₁
  induction f₁ with
  | zero =>
    intro f₂ i h1 _
    omega
  | succ g ih =>
    intro f₂ i h1 h2
    match f₂ with
    | 0 => omega
    | h + 1 =>
      simp only [forwardSubTF]
      have hs : ∑ j ∈ Finset.univ.filter (fun j => j < i), R j i * forwardSubTF R b g j
          = ∑ j ∈ Finset.univ.filter (fun j => j < i), R j i * forwardSubTF R b h j := by
        refine Finset.sum_congr rfl fun j hj => ?_
        have hij : (j : ℕ) < (i : ℕ) := Fin.lt_def.mp (Finset.mem_filter.mp hj).2
        rw [ih h j (by omega) (by omega)]
      rw [hs]

theorem backSub_eq {m : ℕ} (R : Mat m m) (b : Vec m) (i : Fin m) :
    backSub R b i =
      (b i - ∑ j ∈ Finset.univ.filter (fun j => i < j),
        R i j * backSub R b j) / R i i := by
  have him := i.isLt
  obtain ⟨g, hg⟩ : ∃ g, m - i.val = g + 1 := ⟨m - i.val - 1, by omega⟩
  have h1 : backSub R b i = backSubF R b (m - i.val) i :=
    backSubF_stable R b m (m - i.val) i (by omega) (le_refl _)
  rw [h1, hg]
  simp only [backSubF]
  have hs : ∑ j ∈ Finset.univ.filter (fun j => i < j), R i j * backSubF R b g j
      = ∑ j ∈ Finset.univ.filter (fun j => i < j), R i j * backSub R b j := by
    refine Finset.sum_congr rfl fun j hj => ?_
    have hij : (i : ℕ) < (j : ℕ) := Fin.lt_def.mp (Finset.mem_filter.mp hj).2
    have hjm := j.isLt
    rw [backSubF_stable R b g m j (by omega) (by omega)]
    rfl
  rw [hs]

theorem forwardSubT_eq {m : ℕ} (R : Mat m m) (b : Vec m) (i : Fin m) :
    forwardSubT R b i =
      (b i - ∑ j ∈ Finset.univ.filter (fun j => j < i),
        R j i * forwardSubT R b j) / R i i := by
  have him := i.isLt
  have h1 : forwardSubT R b i = forwardSubTF R b (i.val + 1) i :=
    forwardSubTF_stable R b m (i.val + 1) i (by omega) (by omega)
  rw [h1]
  simp only [forwardSubTF]
  have hs : ∑ j ∈ Finset.univ.filter (fun j => j < i), R j i * forwardSubTF R b i.val j
      = ∑ j ∈ Finset.univ.filter (fun j => j < i), R j i * forwardSubT R b j := by
    refine Finset.sum_congr rfl fun j hj => ?_
    have hij : (j : ℕ) < (i : ℕ) := Fin.lt_def.mp (Finset.mem_filter.mp hj).2
    have hjm := j.isLt
    rw [forwardSubTF_stable R b i.val m j (by omega) (by omega)]
    rfl
  rw [hs]

theorem sum_split_at {m : ℕ} (i : Fin m) (f : Fin m → ℚ) :
    ∑ j, f j =
      (∑ j ∈ Finset.univ.filter (fun j => j < i), f j) + f i +
        ∑ j ∈ Finset.univ.filter (fun j => i < j), f j := by
  have hsplit := Finset.sum_filter_add_sum_filter_not Finset.univ (fun j => j < i) f
  have hins : (Finset.univ.filter (fun j : Fin m => ¬ j < i))
      = insert i (Finset.univ.filter (fun j => i < j)) := by
    ext j
    simp only [Finset.mem_filter, Finset.mem_univ, true_and, Finset.mem_insert,
      not_lt]
    constructor
    · intro h
      rcases eq_or_lt_of_le h with h' | h'
      · exact Or.inl h'.symm
      · exact Or.inr h'
    · rintro (rfl | h)
      · exact le_refl _
      · exact le_of_lt h
  rw [← hsplit, hins, Finset.sum_insert (by simp)]
  ring

theorem mulVec_backSub {m : ℕ} (R : Mat m m) (b : Vec m)
    (hUT : UpperTri R) (hd : ∀ i, R i i ≠ 0) :
    R.mulVec (backSub R b) = b := by
  funext i
  have hmv : R.mulVec (backSub R b) i = ∑ j, R i j * backSub R b j := by
    simp [Matrix.mulVec, Matrix.dotProduct]
  rw [hmv, sum_split_at i]
  have hlow : (∑ j ∈ Finset.univ.filter (fun j => j < i),
      R i j * backSub R b j) = 0 :=
    Finset.sum_eq_zero fun j hj => by
      rw [hUT i j (Finset.mem_filter.mp hj).2, zero_mul]
  rw [hlow, zero_add, backSub_eq R b i]
  have hi := hd i
  field_simp

theorem transpose_mulVec_forwardSubT {m : ℕ} (R : Mat m m) (b : Vec m)
    (hUT : UpperTri R) (hd : ∀ i, R i i ≠ 0) :
    R.transpose.mulVec (forwardSubT R b) = b := by
  funext i
  have hmv : R.transpose.mulVec (forwardSubT R b) i
      = ∑ j, R j i * forwardSubT R b j := by
    simp [Matrix.mulVec, Matrix.dotProduct, Matrix.transpose]
  rw [hmv, sum_split_at i]
  have hhigh : (∑ j ∈ Finset.univ.filter (fun j => i < j),
      R j i * forwardSubT R b j) = 0 :=
    Finset.sum_eq_zero fun j hj => by
      rw [hUT j i (Finset.mem_filter.mp hj).2, zero_mul]
  rw [hhigh, add_zero, forwardSubT_eq R b i]
  have hi := hd i
  field_simp

theorem upperTri_isUnit_det {m : ℕ} (R : Mat m m) (hUT : UpperTri R)
    (hd : ∀ i, R i i ≠ 0) : IsUnit R.det := by
  have hbt : R.BlockTriangular id := fun i j h => hUT i j h
  rw [Matrix.det_of_upperTriangular hbt, isUnit_iff_ne_zero]
  exact Finset.prod_ne_zero_iff.mpr fun i _ => hd i

theorem eq_inv_mulVec_of_mulVec_eq {m : ℕ} (R : Mat m m) (x v : Vec m)
    (hdet : IsUnit R.det) (hx : R.mulVec x = v) : x = R⁻¹.mulVec v := by
  rw [← hx, Matrix.mulVec_mulVec, Matrix.nonsing_inv_mul R hdet,
    Matrix.one_mulVec]

theorem backSub_eq_inv_mulVec {m : ℕ} (R : Mat m m) (b : Vec m)
    (hUT : UpperTri R) (hd : ∀ i, R i i ≠ 0) :
    backSub R b = R⁻¹.mulVec b :=
  eq_inv_mulVec_of_mulVec_eq R _ b (upperTri_isUnit_det R hUT hd)
    (mulVec_backSub R b hUT hd)

theorem forwardSubT_eq_inv_mulVec {m : ℕ} (R : Mat m m) (b : Vec m)
    (hUT : UpperTri R) (hd : ∀ i, R i i ≠ 0) :
    forwardSubT R b = R⁻¹.transpose.mulVec b := by
  have hdet : IsUnit R.transpose.det := by
    rw [Matrix.det_transpose]
    exact upperTri_isUnit_det R hUT hd
  have h := eq_inv_mulVec_of_mulVec_eq R.transpose _ b hdet
    (transpose_mulVec_forwardSubT R b hUT hd)
  rw [h, Matrix.transpose_nonsing_inv]

theorem solveTriangular_of_nonsingular {m : ℕ} (transposed : Bool)
    (R : Mat m m) (b : Vec m) (hd : ∀ i, R i i ≠ 0) :
    solveTriangular transposed R b =
      .ok (if transposed then forwardSubT R b else backSub R b) := by
  have hns : ¬ ∃ i, R i i = 0 := by
    push_neg
    exact hd
  unfold solveTriangular
  rw [if_neg hns]

theorem solveTriangular_singular {m : ℕ} (transposed : Bool) (R : Mat m m)
    (b : Vec m) (hs : ∃ i, R i i = 0) :
    solveTriangular transposed R b = .error .singularPreconditioner := by
  unfold solveTriangular
  rw [if_pos hs]

theorem solveTriangular_false_ok {m : ℕ} (R : Mat m m) (b : Vec m)
    (hd : ∀ i, R i i ≠ 0) : solveTriangular false R b = .ok (backSub R b) := by
  rw [solveTriangular_of_nonsingular false R b hd]
  rfl

theorem solveTriangular_true_ok {m : ℕ} (R : Mat m m) (b : Vec m)
    (hd : ∀ i, R i i ≠ 0) : solveTriangular true R b = .ok (forwardSubT R b) := by
  rw [solveTriangular_of_nonsingular true R b hd]
  rfl

theorem solveTriangular_false_inv {m : ℕ} (R : Mat m m) (b : Vec m)
    (hUT : UpperTri R) (hd : ∀ i, R i i ≠ 0) :
    solveTriangular false R b = .ok (R⁻¹.mulVec b) := by
  rw [solveTriangular_false_ok R b hd, backSub_eq_inv_mulVec R b hUT hd]

theorem solveTriangular_true_inv {m : ℕ} (R : Mat m m) (b : Vec m)
    (hUT : UpperTri R) (hd : ∀ i, R i i ≠ 0) :
    solveTriangular true R b = .ok (R⁻¹.transpose.mulVec b) := by
  rw [solveTriangular_true_ok R b hd, forwardSubT_eq_inv_mulVec R b hUT hd]

theorem backSub_mulVec_cancel {m : ℕ} (R : Mat m m) (x : Vec m)
    (hUT : UpperTri R) (hd : ∀ i, R i i ≠ 0) :
    backSub R (R.mulVec x) = x := by
  rw [backSub_eq_inv_mulVec R _ hUT hd, Matrix.mulVec_mulVec,
    Matrix.nonsing_inv_mul R (upperTri_isUnit_det R hUT hd), Matrix.one_mulVec]

/-!
Claim theorems.
-/

/-- Claim C1: for every `A : (n, m)` and nonsingular upper-triangular
`R : (m, m)`, the operator `a_times_inv_r(A, R)` has shape `(n, m)`, its
forward apply maps every length-`m` vector `v` to `A · (R⁻¹ v)` (triangular
solve of `R w = v` followed by multiplication by `A`), and its adjoint apply
maps every length-`n` vector `v` to `R⁻ᵀ · (Aᵀ v)` (multiplication by `Aᵀ`
followed by a transpose triangular solve with `R`). -/
theorem a_times_inv_r_spec {n m : ℕ} (A : Mat n m) (R : Mat m m)
    (hUT : UpperTri R) (hd : ∀ i, R i i ≠ 0) :
    (a_times_inv_r A R).shape = (n, m) ∧
    (∀ v : Vec m, (a_times_inv_r A R).matvec v
        = .ok (A.mulVec (R⁻¹.mulVec v))) ∧
    (∀ v : Vec n, (a_times_inv_r A R).rmatvec v
        = .ok (R⁻¹.transpose.mulVec (A.transpose.mulVec v))) := by
  refine ⟨rfl, fun v => ?_, fun v => ?_⟩
  · show (solveTriangular false R v).map (fun work => A.mulVec work) = _
    rw [solveTriangular_false_inv R v hUT hd]
    rfl
  · exact solveTriangular_true_inv R _ hUT hd

/-- Witness for C1 at `A = [[1,2],[3,4]]`, `R = [[1,1],[0,2]]`. -/
theorem a_times_inv_r_spec_witness :
    (a_times_inv_r !![(1:ℚ), 2; 3, 4] !![(1:ℚ), 1; 0, 2]).shape = (2, 2) ∧
    (∀ v : Vec 2, (a_times_inv_r !![(1:ℚ), 2; 3, 4] !![(1:ℚ), 1; 0, 2]).matvec v
        = .ok ((!![(1:ℚ), 2; 3, 4]).mulVec ((!![(1:ℚ), 1; 0, 2])⁻¹.mulVec v))) ∧
    (∀ v : Vec 2, (a_times_inv_r !![(1:ℚ), 2; 3, 4] !![(1:ℚ), 1; 0, 2]).rmatvec v
        = .ok ((!![(1:ℚ), 1; 0, 2])⁻¹.transpose.mulVec
            ((!![(1:ℚ), 2; 3, 4]).transpose.mulVec v))) :=
  a_times_inv_r_spec !![(1:ℚ), 2; 3, 4] !![(1:ℚ), 1; 0, 2]
    (by decide) (by decide)

/-- Claim C3: applying the forward action of `a_times_inv_r(A, R)` to the
vector `R·x` yields `A·x` (exactly, over `ℚ`). -/
theorem a_times_inv_r_precond_cancel {n m : ℕ} (A : Mat n m) (R : Mat m m)
    (hUT : UpperTri R) (hd : ∀ i, R i i ≠ 0) (x : Vec m) :
    (a_times_inv_r A R).matvec (R.mulVec x) = .ok (A.mulVec x) := by
  show (solveTriangular false R (R.mulVec x)).map (fun work => A.mulVec work) = _
  rw [solveTriangular_false_ok R _ hd, backSub_mulVec_cancel R x hUT hd]
  rfl

/-- Witness for C3 at `A = [[1,2],[3,4]]`, `R = [[1,1],[0,2]]`, `x = (1, 1)`. -/
theorem a_times_inv_r_precond_cancel_witness :
    (a_times_inv_r !![(1:ℚ), 2; 3, 4] !![(1:ℚ), 1; 0, 2]).matvec
        ((!![(1:ℚ), 1; 0, 2]).mulVec fun _ => 1)
      = .ok ((!![(1:ℚ), 2; 3, 4]).mulVec fun _ => 1) :=
  a_times_inv_r_precond_cancel !![(1:ℚ), 2; 3, 4] !![(1:ℚ), 1; 0, 2]
    (by decide) (by decide) (fun _ => 1)

theorem lrGramMv_ok {n m : ℕ} (A : Mat n m) (R : Mat m m)
    (hUT : UpperTri R) (hd : ∀ i, R i i ≠ 0) (v : Vec m) :
    lrGramMv A R v
      = .ok (R⁻¹.transpose.mulVec (A.transpose.mulVec
          (A.mulVec (R⁻¹.mulVec v)))) := by
  unfold lrGramMv
  rw [solveTriangular_false_inv R v hUT hd]
  show solveTriangular true R (A.transpose.mulVec (A.mulVec (R⁻¹.mulVec v))) = _
  exact solveTriangular_true_inv R _ hUT hd

/-- Claim C2: for every `A : (n, m)` and nonsingular upper-triangular
`R : (m, m)`, the operator `lr_precond_gram(A, R)` has shape `(m, m)`, uses
the same function for forward and adjoint application, maps every length-`m`
vector `v` to `R⁻ᵀ · (Aᵀ · (A · (R⁻¹ v)))`, and satisfies
`⟨apply(u), w⟩ = ⟨u, apply(w)⟩` for all `u`, `w`. -/
theorem lr_precond_gram_spec {n m : ℕ} (A : Mat n m) (R : Mat m m)
    (hUT : UpperTri R) (hd : ∀ i, R i i ≠ 0) :
    (lr_precond_gram A R).shape = (m, m) ∧
    (lr_precond_gram A R).rmatvec = (lr_precond_gram A R).matvec ∧
    (∀ v : Vec m, (lr_precond_gram A R).matvec v
        = .ok (R⁻¹.transpose.mulVec (A.transpose.mulVec
            (A.mulVec (R⁻¹.mulVec v))))) ∧
    (∀ u w xu xw : Vec m, (lr_precond_gram A R).matvec u = .ok xu →
        (lr_precond_gram A R).matvec w = .ok xw →
        Matrix.dotProduct xu w = Matrix.dotProduct u xw) := by
  have happly : ∀ v : Vec m, (lr_precond_gram A R).matvec v
      = .ok (R⁻¹.transpose.mulVec (A.transpose.mulVec
          (A.mulVec (R⁻¹.mulVec v)))) := fun v => lrGramMv_ok A R hUT hd v
  refine ⟨rfl, rfl, happly, fun u w xu xw hu hw => ?_⟩
  set M : Mat m m := R⁻¹.transpose * (A.transpose * (A * R⁻¹)) with hM
  have hval : ∀ v : Vec m,
      R⁻¹.transpose.mulVec (A.transpose.mulVec (A.mulVec (R⁻¹.mulVec v)))
        = M.mulVec v := by
    intro v
    simp only [Matrix.mulVec_mulVec, hM]
  have hxu : xu = M.mulVec u := by
    have := (happly u).symm.trans hu
    rw [hval u] at this
    exact ((Except.ok.injEq _ _).mp this).symm
  have hxw : xw = M.mulVec w := by
    have := (happly w).symm.trans hw
    rw [hval w] at this
    exact ((Except.ok.injEq _ _).mp this).symm
  have hMsymm : M.transpose = M := by
    rw [hM]
    simp only [Matrix.transpose_mul, Matrix.transpose_transpose]
    rw [Matrix.mul_assoc, Matrix.mul_assoc]
  rw [hxu, hxw, Matrix.dotProduct_mulVec, ← Matrix.mulVec_transpose, hMsymm]

/-- Witness for C2 at `A = [[1,2],[3,4]]`, `R = [[1,1],[0,2]]`. -/
theorem lr_precond_gram_spec_witness :
    (lr_precond_gram !![(1:ℚ), 2; 3, 4] !![(1:ℚ), 1; 0, 2]).shape = (2, 2) ∧
    (lr_precond_gram !![(1:ℚ), 2; 3, 4] !![(1:ℚ), 1; 0, 2]).rmatvec
      = (lr_precond_gram !![(1:ℚ), 2; 3, 4] !![(1:ℚ), 1; 0, 2]).matvec ∧
    (∀ v : Vec 2, (lr_precond_gram !![(1:ℚ), 2; 3, 4] !![(1:ℚ), 1; 0, 2]).matvec v
        = .ok ((!![(1:ℚ), 1; 0, 2])⁻¹.transpose.mulVec
            ((!![(1:ℚ), 2; 3, 4]).transpose.mulVec
              ((!![(1:ℚ), 2; 3, 4]).mulVec
                ((!![(1:ℚ), 1; 0, 2])⁻¹.mulVec v))))) ∧
    (∀ u w xu xw : Vec 2,
        (lr_precond_gram !![(1:ℚ), 2; 3, 4] !![(1:ℚ), 1; 0, 2]).matvec u = .ok xu →
        (lr_precond_gram !![(1:ℚ), 2; 3, 4] !![(1:ℚ), 1; 0, 2]).matvec w = .ok xw →
        Matrix.dotProduct xu w = Matrix.dotProduct u xw) :=
  lr_precond_gram_spec !![(1:ℚ), 2; 3, 4] !![(1:ℚ), 1; 0, 2]
    (by decide) (by decide)

/-- Claim C4: whenever the external LSQR call inside
`upper_tri_precond_lsqr` returns a result, the entry point returns that
result with exactly one modification — the solution component is replaced by
its forward triangular solve `R⁻¹ y` — and every other field unchanged. -/
theorem upper_tri_precond_lsqr_frame {n m : ℕ} {D : Type} (lsqr : LsqrFun n m D)
    (A : Mat n m) (b : Vec n) (R : Mat m m) (tol : ℚ) (iter_lim : ℕ)
    (x0 : Option (Vec m)) (out : SolverResult m D)
    (hUT : UpperTri R) (hd : ∀ i, R i i ≠ 0)
    (hres : lsqr (a_times_inv_r A R) b tol tol iter_lim
        (Option.map R.mulVec x0) = .ok out) :
    upper_tri_precond_lsqr lsqr A b R tol iter_lim x0
      = .ok { sol := R⁻¹.mulVec out.sol, diagnostics := out.diagnostics } := by
  cases x0 with
  | none =>
    rw [Option.map_none'] at hres
    simp only [upper_tri_precond_lsqr]
    rw [hres]
    simp only [Except.bind]
    rw [solveTriangular_false_inv R out.sol hUT hd]
    rfl
  | some x0v =>
    rw [Option.map_some'] at hres
    simp only [upper_tri_precond_lsqr]
    rw [hres]
    simp only [Except.bind]
    rw [solveTriangular_false_inv R out.sol hUT hd]
    rfl

/-- Witness for C4 with a constant external solver at `A = [[2]]`, `R = [[1]]`. -/
theorem upper_tri_precond_lsqr_frame_witness :
    upper_tri_precond_lsqr (fun _ _ _ _ _ _ => .ok ⟨fun _ => (3:ℚ), (7:ℕ)⟩)
        !![(2:ℚ)] (fun _ => 1) !![(1:ℚ)] 1 5 none
      = .ok { sol := (!![(1:ℚ)])⁻¹.mulVec fun _ => (3:ℚ), diagnostics := (7:ℕ) } :=
  upper_tri_precond_lsqr_frame (fun _ _ _ _ _ _ => .ok ⟨fun _ => (3:ℚ), (7:ℕ)⟩)
    !![(2:ℚ)] (fun _ => 1) !![(1:ℚ)] 1 5 none ⟨fun _ => (3:ℚ), 7⟩
    (by decide) (by decide) rfl

/-- Claim C5: both `upper_tri_precond_lsqr` and `upper_tri_precond_cg` pass
`y0 = R·x0` to the external solver as its initial guess when `x0` is
supplied, and pass no initial guess when `x0` is `None`.  Each conjunct
exhibits the exact call made to the external routine. -/
theorem precond_initial_guess_passing :
    ∀ (n m : ℕ) (D : Type) (lsqr : LsqrFun n m D) (cg : CgFun m D)
      (A : Mat n m) (bl : Vec n) (bc : Vec m) (R : Mat m m) (tol : ℚ)
      (iter_lim : ℕ) (x0v : Vec m),
    (upper_tri_precond_lsqr lsqr A bl R tol iter_lim (some x0v)
      = (lsqr (a_times_inv_r A R) bl tol tol iter_lim
            (some (R.mulVec x0v))).bind
          fun res => (solveTriangular false R res.sol).map
            fun x => { res with sol := x }) ∧
    (upper_tri_precond_lsqr lsqr A bl R tol iter_lim none
      = (lsqr (a_times_inv_r A R) bl tol tol iter_lim none).bind
          fun res => (solveTriangular false R res.sol).map
            fun x => { res with sol := x }) ∧
    (upper_tri_precond_cg cg A bc R tol iter_lim (some x0v)
      = (solveTriangular true R bc).bind fun b_precond =>
          (cg (lr_precond_gram A R) b_precond tol tol iter_lim
              (some (R.mulVec x0v))).bind
            fun res => (solveTriangular false R res.sol).map
              fun x => { res with sol := x }) ∧
    (upper_tri_precond_cg cg A bc R tol iter_lim none
      = (solveTriangular true R bc).bind fun b_precond =>
          (cg (lr_precond_gram A R) b_precond tol tol iter_lim none).bind
            fun res => (solveTriangular false R res.sol).map
              fun x => { res with sol := x }) := by
  intro n m D lsqr cg A bl bc R tol iter_lim x0v
  exact ⟨rfl, rfl, rfl, rfl⟩

/-- Claim C6: `upper_tri_precond_cg` hands the external CG routine the
right-hand side `R⁻ᵀ · b`, obtained by a transpose triangular solve applied
directly to the supplied `b` — no multiplication by `Aᵀ` is performed. -/
theorem upper_tri_precond_cg_rhs {n m : ℕ} {D : Type} (cg : CgFun m D)
    (A : Mat n m) (b : Vec m) (R : Mat m m) (tol : ℚ) (iter_lim : ℕ)
    (x0 : Option (Vec m)) (hUT : UpperTri R) (hd : ∀ i, R i i ≠ 0) :
    upper_tri_precond_cg cg A b R tol iter_lim x0
      = (cg (lr_precond_gram A R) (R⁻¹.transpose.mulVec b) tol tol iter_lim
            (Option.map R.mulVec x0)).bind
          fun res => (solveTriangular false R res.sol).map
            fun x => { res with sol := x } := by
  show (solveTriangular true R b).bind _ = _
  rw [solveTriangular_true_inv R b hUT hd]
  cases x0 with
  | none => rfl
  | some x0v => rfl

/-- Witness for C6 with a constant external CG routine at `A = R = [[1]]`. -/
theorem upper_tri_precond_cg_rhs_witness :
    upper_tri_precond_cg (fun _ _ _ _ _ _ => .ok ⟨fun _ => (5:ℚ), (9:ℕ)⟩)
        !![(1:ℚ)] (fun _ => 2) !![(1:ℚ)] 1 4 none
      = (Except.ok (⟨fun _ => (5:ℚ), (9:ℕ)⟩ : SolverResult 1 ℕ)).bind
          fun res => (solveTriangular false !![(1:ℚ)] res.sol).map
            fun x => { res with sol := x } :=
  upper_tri_precond_cg_rhs (fun _ _ _ _ _ _ => .ok ⟨fun _ => (5:ℚ), (9:ℕ)⟩)
    !![(1:ℚ)] (fun _ => 2) !![(1:ℚ)] 1 4 none (by decide) (by decide)

/-- Claim C7: whenever the external LSQR call inside `pinv_precond_lsqr`
returns a result, the entry point returns that result with the solution
component replaced by the fresh product `N · y` and every other field
unchanged. -/
theorem pinv_precond_lsqr_frame {n m k : ℕ} {D : Type} (lsqr : LsqrFun n k D)
    (A : Mat n m) (b : Vec n) (N : Mat m k) (tol : ℚ) (iter_lim : ℕ)
    (out : SolverResult k D)
    (hres : lsqr
        { shape := (n, k)
          matvec := fun vec => .ok (A.mulVec (N.mulVec vec))
          rmatvec := fun vec => .ok (N.transpose.mulVec (A.transpose.mulVec vec)) }
        b tol tol iter_lim none = .ok out) :
    pinv_precond_lsqr lsqr A b N tol iter_lim
      = .ok { sol := N.mulVec out.sol, diagnostics := out.diagnostics } := by
  simp only [pinv_precond_lsqr]
  rw [hres]
  rfl

/-- Witness for C7 with a constant external solver, `A = [[2]]`, `N = [[3]]`. -/
theorem pinv_precond_lsqr_frame_witness :
    pinv_precond_lsqr (fun _ _ _ _ _ _ => .ok ⟨fun _ => (4:ℚ), (11:ℕ)⟩)
        !![(2:ℚ)] (fun _ => 1) !![(3:ℚ)] 1 6
      = .ok { sol := (!![(3:ℚ)]).mulVec fun _ => (4:ℚ), diagnostics := (11:ℕ) } :=
  pinv_precond_lsqr_frame (fun _ _ _ _ _ _ => .ok ⟨fun _ => (4:ℚ), (11:ℕ)⟩)
    !![(2:ℚ)] (fun _ => 1) !![(3:ℚ)] 1 6 ⟨fun _ => (4:ℚ), 11⟩ rfl

/-- Claim C8: when `R` has a zero diagonal entry, the triangular solve — and
with it every operator application and entry point that performs one — fails
with the singular-preconditioner error instead of returning a vector;
the failure is surfaced immediately and not retried. -/
theorem singular_R_errors {n m : ℕ} (A : Mat n m) (R : Mat m m)
    (hs : ∃ i, R i i = 0) :
    (∀ (transposed : Bool) (b : Vec m),
        solveTriangular transposed R b = .error .singularPreconditioner) ∧
    (∀ v : Vec m,
        (a_times_inv_r A R).matvec v = .error .singularPreconditioner) ∧
    (∀ v : Vec n,
        (a_times_inv_r A R).rmatvec v = .error .singularPreconditioner) ∧
    (∀ v : Vec m,
        (lr_precond_gram A R).matvec v = .error .singularPreconditioner) ∧
    (∀ (D : Type) (lsqr : LsqrFun n m D) (b : Vec n) (tol : ℚ)
        (iter_lim : ℕ) (x0 : Option (Vec m)),
        upper_tri_precond_lsqr lsqr A b R tol iter_lim x0
          = .error .singularPreconditioner) ∧
    (∀ (D : Type) (cg : CgFun m D) (b : Vec m) (tol : ℚ) (iter_lim : ℕ)
        (x0 : Option (Vec m)),
        upper_tri_precond_cg cg A b R tol iter_lim x0
          = .error .singularPreconditioner) := by
  refine ⟨fun transposed b => solveTriangular_singular transposed R b hs,
    fun v => ?_, fun v => ?_, fun v => ?_, ?_, ?_⟩
  · show (solveTriangular false R v).map _ = _
    rw [solveTriangular_singular false R v hs]
    rfl
  · exact solveTriangular_singular true R _ hs
  · show (solveTriangular false R v).bind _ = _
    rw [solveTriangular_singular false R v hs]
    rfl
  · intro D lsqr b tol iter_lim x0
    cases x0 with
    | none =>
      simp only [upper_tri_precond_lsqr]
      cases hcall : lsqr (a_times_inv_r A R) b tol tol iter_lim none with
      | error e =>
        cases e
        rfl
      | ok res =>
        show (solveTriangular false R res.sol).map _ = _
        rw [solveTriangular_singular false R res.sol hs]
        rfl
    | some x0v =>
      simp only [upper_tri_precond_lsqr]
      cases hcall : lsqr (a_times_inv_r A R) b tol tol iter_lim
          (some (R.mulVec x0v)) with
      | error e =>
        cases e
        rfl
      | ok res =>
        show (solveTriangular false R res.sol).map _ = _
        rw [solveTriangular_singular false R res.sol hs]
        rfl
  · intro D cg b tol iter_lim x0
    show (solveTriangular true R b).bind _ = _
    rw [solveTriangular_singular true R b hs]
    rfl

/-- Witness for C8 at the singular preconditioner `R = [[0]]`, `A = [[1]]`. -/
theorem singular_R_errors_witness :
    (∀ (transposed : Bool) (b : Vec 1),
        solveTriangular transposed !![(0:ℚ)] b
          = .error .singularPreconditioner) ∧
    (∀ v : Vec 1, (a_times_inv_r !![(1:ℚ)] !![(0:ℚ)]).matvec v
        = .error .singularPreconditioner) ∧
    (∀ v : Vec 1, (a_times_inv_r !![(1:ℚ)] !![(0:ℚ)]).rmatvec v
        = .error .singularPreconditioner) ∧
    (∀ v : Vec 1, (lr_precond_gram !![(1:ℚ)] !![(0:ℚ)]).matvec v
        = .error .singularPreconditioner) ∧
    (∀ (D : Type) (lsqr : LsqrFun 1 1 D) (b : Vec 1) (tol : ℚ)
        (iter_lim : ℕ) (x0 : Option (Vec 1)),
        upper_tri_precond_lsqr lsqr !![(1:ℚ)] b !![(0:ℚ)] tol iter_lim x0
          = .error .singularPreconditioner) ∧
    (∀ (D : Type) (cg : CgFun 1 D) (b : Vec 1) (tol : ℚ) (iter_lim : ℕ)
        (x0 : Option (Vec 1)),
        upper_tri_precond_cg cg !![(1:ℚ)] b !![(0:ℚ)] tol iter_lim x0
          = .error .singularPreconditioner) :=
  singular_R_errors !![(1:ℚ)] !![(0:ℚ)] (by decide)

/-- Claim C9 counterexample: with `A` of shape `(3, 2)` and `R` of shape
`(3, 3)` — dimensionally inconsistent, since `R` would have to be `(2, 2)` —
`a_times_inv_r` still constructs and returns an operator of declared shape
`(3, 2)`: no shape error is raised at (or before) operator construction.
The inconsistency surfaces only later, as an array-layer error inside the
first forward application. -/
theorem shape_mismatch_not_raised_at_construction :
    (ua_times_inv_r [[1, 0], [0, 1], [1, 1]]
        [[1, 0, 0], [0, 1, 0], [0, 0, 1]]).shape = (3, 2) ∧
    (ua_times_inv_r [[1, 0], [0, 1], [1, 1]]
        [[1, 0, 0], [0, 1, 0], [0, 0, 1]]).matvec [1, 1]
      = .error .shapeMismatch := by
  constructor
  · rfl
  · rfl

/-- Claim C9 as amended: this layer performs no shape validation of its own.
Operator construction succeeds on every input — consistent or not — and the
declared shape is computed from `A` alone (`A.shape` for `a_times_inv_r`,
`(A.shape[1], A.shape[1])` for `lr_precond_gram`); dimension inconsistencies
are detected only by the underlying array library inside later operations. -/
theorem no_shape_validation_at_construction :
    ∀ A R : List (List ℚ),
      (ua_times_inv_r A R).shape = (A.length, (A.headD []).length) ∧
      (ulr_precond_gram A R).shape
        = ((A.headD []).length, (A.headD []).length) := by
  intro A R
  exact ⟨rfl, rfl⟩

/-- Claim C10: every forward and adjoint application of the operators built
by `a_times_inv_r`, `lr_precond_gram` and `pinv_precond_lsqr` leaves the
caller-supplied input vector unchanged — all in-place writes land in the
operator's private scratch buffers — and the traced computation returns
exactly the value of the corresponding functional operator apply. -/
theorem operator_apply_preserves_input :
    ∀ (n m k : ℕ) (A : Mat n m) (R : Mat m m) (N : Mat m k)
      (s1 : MvState m) (s2 : RmvState n m) (s3 : LrState n m)
      (s4 : PinvMvState k m) (s5 : PinvRmvState n m),
    ((mvTrace A R s1).map (fun p => p.2.vec)
      = (mvTrace A R s1).map fun _ => s1.vec) ∧
    ((mvTrace A R s1).map Prod.fst = (a_times_inv_r A R).matvec s1.vec) ∧
    ((rmvTrace A R s2).map (fun p => p.2.vec)
      = (rmvTrace A R s2).map fun _ => s2.vec) ∧
    ((rmvTrace A R s2).map Prod.fst = (a_times_inv_r A R).rmatvec s2.vec) ∧
    ((lrGramMvTrace A R s3).map (fun p => p.2.vec)
      = (lrGramMvTrace A R s3).map fun _ => s3.vec) ∧
    ((lrGramMvTrace A R s3).map Prod.fst
      = (lr_precond_gram A R).matvec s3.vec) ∧
    ((pinvMvTrace A N s4).2.vec = s4.vec) ∧
    ((pinvRmvTrace A N s5).2.vec = s5.vec) := by
  intro n m k A R N s1 s2 s3 s4 s5
  refine ⟨?_, ?_, ?_, ?_, ?_, ?_, rfl, rfl⟩
  · cases h : solveTriangular false R s1.vec <;>
      simp [mvTrace, Except.map, h]
  · cases h : solveTriangular false R s1.vec <;>
      simp [mvTrace, a_times_inv_r, Except.map, h]
  · cases h : solveTriangular true R (A.transpose.mulVec s2.vec) <;>
      simp [rmvTrace, Except.map, h]
  · cases h : solveTriangular true R (A.transpose.mulVec s2.vec) <;>
      simp [rmvTrace, a_times_inv_r, Except.map, h]
  · simp only [lrGramMvTrace]
    cases h : solveTriangular false R s3.vec with
    | error e => rfl
    | ok w =>
      simp only [Except.bind]
      cases h2 : solveTriangular true R (A.transpose.mulVec (A.mulVec w)) with
      | error e => rfl
      | ok r => rfl
  · simp only [lrGramMvTrace, lr_precond_gram, lrGramMv]
    cases h : solveTriangular false R s3.vec with
    | error e => rfl
    | ok w =>
      simp only [Except.bind]
      cases h2 : solveTriangular true R (A.transpose.mulVec (A.mulVec w)) with
      | error e => rfl
      | ok r => rfl

end Ristretto
